import Mathlib

/-!
# Verification of the zenodb time-series core against its specification

Shallow embedding of the zenodb repository sources:
* `src/expr/avg.go` — the AVG aggregation expression (state block, merge, get);
* `src/bytemap_params.go` — the `bytemapParams` adapter;
* `src/bytetree/bytetree.go` — the byte-keyed radix tree (Update/Walk/Remove/Copy);
* `src/unnamed/part_000` (package `zenodb` half) — the row store, file store
  serialization (`processFlushes`' write closure) and `fileStore.iterate`;
* sequence codec modelled from the spec (its source is not in the repository
  snapshot; only its tests and callers are).

Go `float64` values are modelled as rationals (`ℚ`): the code performs only
addition and division on them, and the claims under study are about control
flow and state handling rather than IEEE rounding.
-/

namespace ZenoDb

/-! ## §1  The AVG expression (`src/expr/avg.go`)

`avg` stores its partial state in a block of `width64bits*2 + 1` bytes laid
out as `wasSet:1 | count:f64 | total:f64`, followed by the wrapped child's
state.  `avg.load` reads the flag byte and, only when it is 1, decodes count
and total; `avg.save` writes flag byte 1 and the two floats.  We model the
17-byte block by its contents: a flag plus the two numbers (arbitrary
"garbage" numbers may sit in an unset block, exactly as arbitrary bytes may
sit under a zero flag on the Go side).  `avg.merge` reads, combines and
writes only this block, returning the child tails untouched, so the block
model captures it completely. -/

/-- `width64bits` — byte width of a 64-bit value.  Modelled from the spec:
the constant's defining file is not in the snapshot; the spec fixes AVG's
width as 16 + child width + 1, i.e. `width64bits = 8`. -/
def width64bits : Nat := 8

/-- The 17-byte avg state block `wasSet:1 | count:f64 | total:f64` of
`src/expr/avg.go`, with the two floats as rationals. -/
structure AvgState where
  wasSet : Bool
  count : ℚ
  total : ℚ
  deriving DecidableEq, Repr

/-- A zeroed destination block (all bytes 0, so the flag byte is 0). -/
def AvgState.zero : AvgState := ⟨false, 0, 0⟩

/-- `avg.load` (`avg.go` lines 75-85): count and total are decoded only when
the flag byte is 1; otherwise both read as 0. -/
def avgLoad (b : AvgState) : ℚ × ℚ × Bool :=
  if b.wasSet then (b.count, b.total, true) else (0, 0, false)

/-- `avg.save` (`avg.go` lines 87-92): sets the flag byte to 1 and stores
count and total. -/
def avgSave (count total : ℚ) : AvgState := ⟨true, count, total⟩

/-- `avg.encodedWidth` (`avg.go` lines 24-26): `width64bits*2 + 1` plus the
wrapped expression's width. -/
def avgEncodedWidth (wrappedWidth : Nat) : Nat :=
  width64bits * 2 + 1 + wrappedWidth

/-- `avg.calc` (`avg.go` lines 68-73). -/
def avgCalc (count total : ℚ) : ℚ :=
  if count = 0 then 0 else total / count

/-- `avg.get` (`avg.go` lines 60-66): derives the value from a state block;
an unset block yields `(0, false)`. -/
def avgGet (b : AvgState) : ℚ × Bool :=
  let (count, total, wasSet) := avgLoad b
  if !wasSet then (0, wasSet) else (avgCalc count total, wasSet)

/-- `avg.merge` (`avg.go` lines 39-58): destination receives x's state, y's
state, their component-wise sum, or stays as it was, according to the two
wasSet flags.  `dst` is the prior content of the destination block (the
"just advance" branch leaves it untouched). -/
def avgMerge (dst x y : AvgState) : AvgState :=
  let (countX, totalX, xWasSet) := avgLoad x
  let (countY, totalY, yWasSet) := avgLoad y
  if !xWasSet then
    if yWasSet then avgSave countY totalY
    else dst
  else
    if yWasSet then avgSave (countX + countY) (totalX + totalY)
    else avgSave countX totalX

/-! ## §2  `bytemapParams` (`src/bytemap_params.go`)

The underlying `bytemap.ByteMap` is an external collaborator: an opaque
binary-sortable encoding of a string-keyed map whose `Get` returns the
stored value or `nil`.  We model it by its interface, an association list of
string keys to float values with first-match lookup. -/

/-- External `bytemap.ByteMap` holding float values, modelled by its `Get`
interface: an association list with first-match lookup. -/
abbrev ByteMapF : Type := List (String × ℚ)

/-- External `bytemap.ByteMap.Get`: the stored value, or `nil` (`none`) when
the field is absent. -/
def byteMapGet (bm : ByteMapF) (field : String) : Option ℚ :=
  (bm.find? (fun e => e.1 = field)).map (·.2)

/-- `bytemapParams.Get` (`bytemap_params.go` lines 10-16): `(0, false)` on a
`nil` result, `(v, true)` on a stored value. -/
def bytemapParamsGet (bmp : ByteMapF) (field : String) : ℚ × Bool :=
  match byteMapGet bmp field with
  | none => (0, false)
  | some v => (v, true)

/-! ## §3  The bucketed sequence codec, for `SUM(FIELD(name))`

The sequence codec's source file is not in the repository snapshot (only its
tests, `src/seq_test.go`, and its callers are), so this section is modelled
from the spec, §4.2 "Sequence codec" and §3 "Sequence".  A sequence is a
newest-first vector of per-period aggregator states with a start timestamp
(int64 nanoseconds) for period 0; the empty sequence is a zero-length
buffer, modelled as `none`.  Claim C3 uses the expression `SUM(FIELD("a"))`,
whose per-period state is one wasSet flag and one running total. -/

/-- Per-period state of `SUM(FIELD(name))`: a wasSet flag and the running
total.  Modelled from the spec: "SUM: width = 8 + child_width + 1 (flag);
store running f64 total". -/
structure SumSlot where
  wasSet : Bool
  total : ℚ
  deriving DecidableEq, Repr

/-- A zeroed slot (flag byte 0, total 0). -/
def SumSlot.zero : SumSlot := ⟨false, 0⟩

/-- `SUM(FIELD(name))` applied to one point's params.  Modelled from the
spec: FIELD reads the named field from params; SUM adds the produced value
to the running total when the field produced one, otherwise leaves the slot
unchanged. -/
def sumFieldUpdate (name : String) (slot : SumSlot) (params : ByteMapF) : SumSlot :=
  match byteMapGet params name with
  | some v => ⟨true, slot.total + v⟩
  | none => slot

/-- `SUM.get` on a slot: the running total and the wasSet flag; an unset
slot reads as `(0, false)`. -/
def sumGet (slot : SumSlot) : ℚ × Bool :=
  if slot.wasSet then (slot.total, true) else (0, false)

/-- A non-empty sequence: start timestamp of period 0 (the most recent
bucket) and the newest-first list of period states. -/
structure SeqData where
  start : Int
  slots : List SumSlot
  deriving DecidableEq, Repr

/-- A sequence; `none` is the empty (zero-length) sequence. -/
abbrev SeqM : Type := Option SeqData

/-- Modelled from the spec: "All timestamps are aligned down to `resolution`
boundaries before comparison" — floor alignment to a multiple of `r`. -/
def alignDown (ts r : Int) : Int := (ts / r) * r

/-- Nanoseconds in one minute, the resolution of scenario S1. -/
def minuteNs : Int := 60000000000

/-- `sequence.truncate`, modelled from the spec: if `start` is older than
`truncateBefore` the sequence is dropped entirely; otherwise trailing
periods whose timestamp `start - i*r` is `< truncateBefore` are trimmed. -/
def seqTruncate (s : SeqM) (r tb : Int) : SeqM :=
  match s with
  | none => none
  | some d =>
    if d.start < tb then none
    else some ⟨d.start, d.slots.take ((d.start - tb) / r + 1).toNat⟩

/-- `sequence.update` for `SUM(FIELD(name))`, modelled from the spec §4.2:
align the timestamp down to the resolution; an empty sequence becomes a
one-period sequence starting at the aligned timestamp; otherwise
`periodsApart = (start - ts) / r` selects prepend (negative), append-back /
in-place at the target index (positive, skipped when the target bucket is
older than `truncateBefore`), or in-place update of period 0 (zero); the
result is then truncated by retention. -/
def seqUpdate (s : SeqM) (name : String) (ts : Int) (params : ByteMapF)
    (r tb : Int) : SeqM :=
  let tsA := alignDown ts r
  let s' : SeqM :=
    match s with
    | none => some ⟨tsA, [sumFieldUpdate name SumSlot.zero params]⟩
    | some d =>
      let delta : Int := (d.start - tsA) / r
      if delta < 0 then
        -- prepend: new most-recent bucket plus a zero-filled gap
        let k := (-delta).toNat
        some ⟨tsA, sumFieldUpdate name SumSlot.zero params
              :: (List.replicate (k - 1) SumSlot.zero ++ d.slots)⟩
      else if delta > 0 then
        -- append-back at index delta, if the target bucket is within retention
        if tsA < tb then some d
        else
          let i := delta.toNat
          let grown := d.slots ++ List.replicate (i + 1 - d.slots.length) SumSlot.zero
          some ⟨d.start, grown.set i (sumFieldUpdate name (grown.getD i SumSlot.zero) params)⟩
      else
        some ⟨d.start, d.slots.set 0 (sumFieldUpdate name (d.slots.getD 0 SumSlot.zero) params)⟩
  seqTruncate s' r tb

/-- `numPeriods`: the period count of a sequence. -/
def seqNumPeriods (s : SeqM) : Nat :=
  match s with
  | none => 0
  | some d => d.slots.length

/-- `valueAt(i)`: the derived value and wasSet flag of period `i`. -/
def seqValueAt (s : SeqM) (i : Nat) : ℚ × Bool :=
  match s with
  | none => (0, false)
  | some d => sumGet (d.slots.getD i SumSlot.zero)

/-- Scenario S1 of the spec: starting from the empty sequence, apply the
four updates (E, a=1), (E+2min, a=2), (E−1min, a=3), (E−3min, a=4) at
resolution one minute with retention cutoff `tb`. -/
def seqS1 (E tb : Int) : SeqM :=
  let r := minuteNs
  let u : SeqM → Int → ℚ → SeqM := fun s ts v => seqUpdate s "a" ts [("a", v)] r tb
  u (u (u (u none E 1) (E + 2 * r) 2) (E - r) 3) (E - 3 * r) 4

/-! ## §4  The byte-keyed radix tree (`src/bytetree/bytetree.go`)

Keys are byte slices (`List Nat`); a node's `data` (`[]encoding.Sequence`)
is opaque to the tree operations, so it is a type parameter `α`, and
`node.doUpdate` — which grows the data vector and updates each sequence via
the external `encoding.Sequence.Update` — is abstracted as a caller-supplied
`upd : Option α → α` applied to the node's previous data (`none` for a node
that had no data).  The byte-size accounting of `Tree.Update`, which sums
capacity deltas of the external sequence buffers, is not tracked; the
`bytes` counter is carried as opaque state (claims C6/C9 do not depend on
its value, and C9's assertion about it is about `Tree.Copy`, which copies
it verbatim). -/

/-- A radix-tree node (`bytetree.go` lines 21-26): full key at data nodes,
optional data, the `removedFor` contexts, and labelled edges. -/
inductive BNode (α : Type) where
  | mk (key : List Nat) (data : Option α) (removedFor : List Int)
       (edges : List (List Nat × BNode α)) : BNode α

/-- The node's full key. -/
def BNode.key {α : Type} : BNode α → List Nat
  | .mk k _ _ _ => k

/-- The node's data (`nil` = `none`). -/
def BNode.data {α : Type} : BNode α → Option α
  | .mk _ d _ _ => d

/-- The contexts this node has been logically removed for. -/
def BNode.removedFor {α : Type} : BNode α → List Int
  | .mk _ _ r _ => r

/-- The node's outgoing edges, in order. -/
def BNode.edges {α : Type} : BNode α → List (List Nat × BNode α)
  | .mk _ _ _ es => es

/-- The tree with its `bytes` and `length` counters (`bytetree.go` lines
14-19). -/
structure BTree (α : Type) where
  root : BNode α
  bytes : Nat
  length : Nat

/-- `New()` (`bytetree.go` lines 34-36): an empty root node. -/
def BTree.new (α : Type) : BTree α := ⟨.mk [] none [] [], 0, 0⟩

/-- `node.wasRemovedFor` (`bytetree.go` lines 208-221): ctx 0 is the
sentinel that never counts as removed; otherwise scan `removedFor`. -/
def wasRemovedFor {α : Type} (ctx : Int) (n : BNode α) : Bool :=
  if ctx = 0 then false else n.removedFor.contains ctx

/-- `node.doRemoveFor` (`bytetree.go` lines 223-230): ctx 0 is never
recorded; otherwise append ctx to `removedFor`. -/
def doRemoveFor {α : Type} (ctx : Int) (n : BNode α) : BNode α :=
  if ctx = 0 then n
  else .mk n.key n.data (n.removedFor ++ [ctx]) n.edges

/-- The common-prefix length `i` computed by the edge-scanning loops of
`doUpdate`/`Remove` (`bytetree.go` lines 88-94 and 163-168). -/
def commonPrefixLen : List Nat → List Nat → Nat
  | a :: as, b :: bs => if a = b then commonPrefixLen as bs + 1 else 0
  | _, _ => 0

/-- `Tree.Walk` (`bytetree.go` lines 52-74), breadth-first with a queue,
observed as the list of `fn` invocations for an `fn` that keeps every node:
each node with data that is not removed under `ctx` contributes its
`(key, data)` pair.  (An `fn` that returns false instead marks the node via
`doRemoveFor`, the same mark `Remove` writes.) -/
def walkAux {α : Type} (ctx : Int) (q : List (BNode α)) : List (List Nat × α) :=
  match q with
  | [] => []
  | n :: rest =>
    let visited : List (List Nat × α) :=
      match n.data with
      | some d => if wasRemovedFor ctx n then [] else [(n.key, d)]
      | none => []
    visited ++ walkAux ctx (rest ++ n.edges.map Prod.snd)
termination_by ((q.map sizeOf).sum : Nat)
decreasing_by
  have h : ∀ es' : List (List Nat × BNode α),
      ((es'.map Prod.snd).map sizeOf).sum < 1 + sizeOf es' := by
    intro es'
    induction es' with
    | nil => simp
    | cons e t ih =>
      obtain ⟨l, c⟩ := e
      simp only [List.map_cons, List.sum_cons, List.cons.sizeOf_spec,
        Prod.mk.sizeOf_spec]
      omega
  have h2 : ((n.edges.map Prod.snd).map sizeOf).sum < sizeOf n := by
    obtain ⟨k, d, r, es⟩ := n
    have := h es
    simp only [BNode.edges, BNode.mk.sizeOf_spec]
    omega
  simp only [List.map_append, List.sum_append, List.map_cons, List.sum_cons]
  omega

/-- `Tree.Walk` on a tree: the queue starts with the root. -/
def walkT {α : Type} (ctx : Int) (t : BTree α) : List (List Nat × α) :=
  walkAux ctx [t.root]

/-- The edge-scanning loop of `Tree.Remove` (`bytetree.go` lines 84-113) on
an edge list: exact match checks/marks `removedFor` and yields the data;
prefix match descends; any other edge is skipped; no match yields `nil`.
Returns the data found and the updated edge list. -/
def removeGo {α : Type} (ctx : Int) (es : List (List Nat × BNode α))
    (key : List Nat) : Option α × List (List Nat × BNode α) :=
  match es with
  | [] => (none, [])
  | (label, target) :: rest =>
    let i := commonPrefixLen label key
    if i = key.length ∧ key.length = label.length then
      if wasRemovedFor ctx target then (none, (label, target) :: rest)
      else (target.data, (label, doRemoveFor ctx target) :: rest)
    else if i = label.length ∧ label.length < key.length then
      let p := removeGo ctx target.edges (key.drop label.length)
      (p.1, (label, .mk target.key target.data target.removedFor p.2) :: rest)
    else
      let p := removeGo ctx rest key
      (p.1, (label, target) :: p.2)
termination_by sizeOf es
decreasing_by
  · obtain ⟨k, d, r, tes⟩ := target
    simp only [BNode.edges, List.cons.sizeOf_spec, Prod.mk.sizeOf_spec,
      BNode.mk.sizeOf_spec]
    omega
  · simp only [List.cons.sizeOf_spec]
    omega

/-- `Tree.Remove` (`bytetree.go` lines 79-114): returns the removed node's
data (or `nil`) and the tree with the mark recorded. -/
def removeT {α : Type} (ctx : Int) (key : List Nat) (t : BTree α) :
    Option α × BTree α :=
  let p := removeGo ctx t.root.edges key
  (p.1, ⟨.mk t.root.key t.root.data t.root.removedFor p.2, t.bytes, t.length⟩)

/-- A fresh leaf created by `doUpdate`/`split`: `&node{key: fullKey}`
followed by `doUpdate`, which installs the data. -/
def newLeaf {α : Type} (upd : Option α → α) (fullKey : List Nat) : BNode α :=
  .mk fullKey (some (upd none)) [] []

/-- `node.doUpdate` (`bytetree.go` lines 190-206) abstracted over the
external sequence updates: the node's data vector becomes `upd` of its
previous value. -/
def dataUpdate {α : Type} (upd : Option α → α) (n : BNode α) : BNode α :=
  .mk n.key (some (upd n.data)) n.removedFor n.edges

/-- `edge.split` (`bytetree.go` lines 232-242): the edge's label is cut at
`splitOn`; a fresh inner node keeps the old target under the label's
remainder.  When the inserted key extends past the split the data goes to a
fresh leaf carrying `fullKey`; when the key ends exactly at the split the
inner node itself receives the data — and its `key` field is left at its
zero value (`nil`). -/
def splitEdge {α : Type} (upd : Option α → α) (fullKey : List Nat)
    (splitOn : Nat) (label : List Nat) (target : BNode α) (key : List Nat) :
    List Nat × BNode α :=
  if splitOn ≠ key.length then
    (label.take splitOn,
      .mk [] none [] [(label.drop splitOn, target),
                      (key.drop splitOn, newLeaf upd fullKey)])
  else
    (label.take splitOn,
      .mk [] (some (upd none)) [] [(label.drop splitOn, target)])

/-- The edge-scanning loop of `Tree.doUpdate` (`bytetree.go` lines 158-187)
on an edge list: exact match updates the target's data; prefix match
descends (creating a new edge below when nothing matches there); partial
overlap splits the edge; otherwise the next edge is tried.  `none` means no
edge matched at all, so the caller appends a new edge.  The `Bool` reports
whether a new node was created. -/
def updateGo {α : Type} (upd : Option α → α) (fullKey : List Nat)
    (es : List (List Nat × BNode α)) (key : List Nat) :
    Option (List (List Nat × BNode α) × Bool) :=
  match es with
  | [] => none
  | (label, target) :: rest =>
    let i := commonPrefixLen label key
    if i = key.length ∧ key.length = label.length then
      some ((label, dataUpdate upd target) :: rest, false)
    else if i = label.length ∧ label.length < key.length then
      let key' := key.drop label.length
      match updateGo upd fullKey target.edges key' with
      | some (tes, isNew) =>
        some ((label, .mk target.key target.data target.removedFor tes) :: rest,
          isNew)
      | none =>
        some ((label, .mk target.key target.data target.removedFor
          (target.edges ++ [(key', newLeaf upd fullKey)])) :: rest, true)
    else if 0 < i then
      some (splitEdge upd fullKey i label target key :: rest, true)
    else
      (updateGo upd fullKey rest key).map (fun p => ((label, target) :: p.1, p.2))
termination_by sizeOf es
decreasing_by
  · obtain ⟨k, d, r, tes⟩ := target
    simp only [BNode.edges, List.cons.sizeOf_spec, Prod.mk.sizeOf_spec,
      BNode.mk.sizeOf_spec]
    omega
  · simp only [List.cons.sizeOf_spec]
    omega

/-- `Tree.Update`/`doUpdate` (`bytetree.go` lines 145-187) on a tree: the
root's edges are scanned; if nothing matches a new edge is appended to the
root.  The byte accounting of the source (capacity deltas of the external
sequence buffers) is not tracked; `length` increments when a node was
created. -/
def updateT {α : Type} (upd : Option α → α) (key : List Nat) (t : BTree α) :
    BTree α :=
  let p :=
    match updateGo upd key t.root.edges key with
    | some (es, isNew) =>
      (BNode.mk t.root.key t.root.data t.root.removedFor es, isNew)
    | none =>
      (BNode.mk t.root.key t.root.data t.root.removedFor
        (t.root.edges ++ [(key, newLeaf upd key)]), true)
  ⟨p.1, t.bytes, t.length + (if p.2 then 1 else 0)⟩

/-- `Tree.Copy`'s per-node copy (`bytetree.go` lines 117-141): each node is
rebuilt from its key and data only, so `removedFor` resets to its zero
value, and the edges are copied recursively in order.  (The source does
this with a breadth-first queue over node/copy pairs; node for node it
produces exactly this structure.) -/
def copyNode {α : Type} (n : BNode α) : BNode α :=
  .mk n.key n.data [] (n.edges.attach.map (fun e => (e.1.1, copyNode e.1.2)))
termination_by sizeOf n
decreasing_by
  obtain ⟨⟨l, c⟩, he⟩ := e
  have h1 : sizeOf (l, c) < sizeOf n.edges := List.sizeOf_lt_of_mem he
  obtain ⟨k, d, r, es⟩ := n
  simp only [BNode.edges, BNode.mk.sizeOf_spec, Prod.mk.sizeOf_spec] at h1 ⊢
  omega

/-- `Tree.Copy` (`bytetree.go` lines 117-141): the counters are copied, the
fresh root is `&node{}` (no key, no data, no marks) receiving copies of the
root's edges. -/
def copyTree {α : Type} (t : BTree α) : BTree α :=
  ⟨.mk [] none [] (t.root.edges.map (fun e => (e.1, copyNode e.2))),
    t.bytes, t.length⟩

/-! ## §5  File store serialization and `fileStore.iterate`
    (`src/unnamed/part_000`, package `zenodb` half)

Bytes are `Nat` values; a serialized stream is a `List Nat`.  Sequences are
raw byte slices here (`List Nat`, `nil` = `[]`): the file layer moves them
verbatim.  The snappy and buffered writers/readers are transparent stream
transports (external collaborators) and are elided.  Two pieces of the
storage layer live outside the snapshot and are abstracted per claim:
`sequence.merge` (a parameter `mergeFn i a b`, standing for
`a.merge(b, fields[i].Expr, resolution, truncateBefore)`) and
`sequence.truncate` (a parameter `truncFn i s`, standing for
`s.truncate(fields[i].Expr.EncodedWidth(), resolution, truncateBefore)`).
The internal memstore `tree` of the zenodb half is likewise not in the
snapshot; modelled from the spec ("joining each row with corresponding radix
nodes from memstores (removing them as seen), then emits any memstore-only
keys"), a memstore is an insertion-ordered association of keys to column
vectors whose `remove` deletes and returns an entry and whose `walk` visits
the remaining entries — `iterate` uses a fresh ctx per call, so a
removed-for-ctx node and a deleted node are indistinguishable within the
call. -/

/-- Outcome classification for `fileStore.iterate` and the flusher: an
`error` is returned to the caller (recoverable); a `runtimeBreak` is a Go
runtime panic or `panic(...)` call. -/
inductive GoErr where
  | error (msg : String)
  | runtimeBreak (msg : String)
  deriving DecidableEq, Repr

/-- Little-endian bytes of `n`, `w` bytes wide (the fixed `binaryEncoding`
of the source; values are truncated to the width exactly as Go's
`uint16(...)`/`uint64(...)` conversions do). -/
def leBytes : Nat → Nat → List Nat
  | 0, _ => []
  | w + 1, n => n % 256 :: leBytes w (n / 256)

/-- Reading little-endian bytes back into a number. -/
def leNat (bs : List Nat) : Nat :=
  bs.foldr (fun b acc => b + 256 * acc) 0

/-- A table field: its `Name` (matched by query field filters) and the
bytes of its `String()` form (written into file headers). -/
structure SField where
  Name : String
  Str : List Nat
  deriving DecidableEq, Repr

/-- The table data relevant to the file layer: the ordered field list. -/
structure STable where
  Fields : List SField
  deriving DecidableEq, Repr

/-- A row as delivered to `onRow`: key bytes and per-field sequence bytes. -/
abbrev SRow : Type := List Nat × List (List Nat)

/-- `,` — the byte joining field strings in the header. -/
def sepByte : Nat := 44

/-- `strings.Join(fieldStrings, ",")` at the byte level. -/
def joinBytes : List (List Nat) → List Nat
  | [] => []
  | [s] => s
  | s :: rest => s ++ sepByte :: joinBytes rest

/-- `strings.Split(headerString, ",")` at the byte level (splitting the
empty string yields one empty piece, as in Go). -/
def splitBytes : List Nat → List (List Nat)
  | [] => [[]]
  | b :: rest =>
    match splitBytes rest with
    | [] => [[]]
    | p :: ps => if b = sepByte then [] :: p :: ps else (b :: p) :: ps

/-- The truncation pass of the flusher's `write` closure (lines 709-716):
`columns[i] = columns[i].truncate(...)`, with the sequence truncation
abstracted as `truncFn`. -/
def truncColumns (truncFn : Nat → List Nat → List Nat)
    (columns : List (List Nat)) : List (List Nat) :=
  (List.range columns.length).map (fun i => truncFn i (columns.getD i []))

/-- The row length computed by the `write` closure (lines 723-727):
`rowLength|keyLength|key|numColumns|colLen...|col...`, where `rowLength`
includes itself. -/
def rowLenOf (key : List Nat) (columns : List (List Nat)) : Nat :=
  8 + 2 + key.length + 2 + (columns.map (fun s => 8 + s.length)).sum

/-- The flusher's `write` closure (lines 708-782) for one row on the
unsorted path: truncate the columns, skip the row if no sequence remains
active, otherwise emit
`rowLength(8)|keyLen(2)|key|numColumns(2)|colLens(8 each)|cols`. -/
def writeRow (truncFn : Nat → List Nat → List Nat) (key : List Nat)
    (columns : List (List Nat)) : List Nat :=
  let columns' := truncColumns truncFn columns
  if columns'.all (fun s => s.isEmpty) then []
  else
    leBytes 8 (rowLenOf key columns') ++ leBytes 2 key.length ++ key
      ++ leBytes 2 columns'.length
      ++ (columns'.map (fun s => leBytes 8 s.length)).flatten
      ++ columns'.flatten

/-- The flush header (lines 661-675): 4 length bytes, then the comma-joined
`field.String()` forms of the table's fields. -/
def writeHeader (t : STable) : List Nat :=
  let headerBytes := joinBytes (t.Fields.map SField.Str)
  leBytes 4 headerBytes.length ++ headerBytes

/-- The whole byte stream a flush writes for a given row list on the
unsorted path: header, then the rows in order. -/
def writeStream (t : STable) (truncFn : Nat → List Nat → List Nat)
    (rows : List SRow) : List Nat :=
  writeHeader t ++ (rows.map (fun r => writeRow truncFn r.1 r.2)).flatten

/-- A memstore as `fileStore.iterate` consumes one.  Modelled from the
spec: the internal radix memstore of the zenodb half is not in the
snapshot; within one iterate call (one fresh ctx) it behaves as an ordered
key-to-columns association with remove and walk. -/
abbrev MemStoreM : Type := List (List Nat × List (List Nat))

/-- `tree.remove(ctx, key)` as iterate uses it: the removed entry's columns
(`nil` = `[]` when absent) and the memstore without the entry. -/
def msRemove (key : List Nat) (ms : MemStoreM) :
    List (List Nat) × MemStoreM :=
  match ms.find? (fun e => e.1 = key) with
  | some e => (e.2, ms.eraseP (fun e' => e'.1 = key))
  | none => ([], ms)

/-- `buildShouldInclude`'s scan over the ascending `includedFields` list
(lines 898-908). -/
def shouldIncludeScan (included : List Nat) (i : Nat) : Bool :=
  match included with
  | [] => false
  | x :: rest =>
    if x = i then true else if x > i then false else shouldIncludeScan rest i

/-- `buildShouldInclude` (lines 879-909): collect the indices of candidate
fields whose `Name` appears in the query's field list; with no field filter
everything is included; with a filter that matches nothing, iterate fails
with a recoverable error. -/
def buildShouldInclude (fields : List String) (candidates : List SField) :
    Except GoErr (Nat → Bool) :=
  let includedFields :=
    (candidates.enum.filter (fun p => fields.any (fun f => f = p.2.Name))).map
      Prod.fst
  if fields.length = 0 then .ok (fun _ => true)
  else if includedFields.length = 0 then
    .error (.error "Non of specified fields exists on table!")
  else .ok (shouldIncludeScan includedFields)

/-- The `fileFields` reconciliation (lines 947-961): each header field
string must match the `String()` form of some table field (first match
wins); otherwise the source panics. -/
def reconcileFields (tableFields : List SField)
    (fieldStrings : List (List Nat)) : Except GoErr (List SField) :=
  match fieldStrings with
  | [] => .ok []
  | s :: rest =>
    match tableFields.find? (fun f => f.Str = s) with
    | some f => (reconcileFields tableFields rest).map (fun fs => f :: fs)
    | none => .error (.runtimeBreak "Unable to find field")

/-- One memstore's contribution to a file row (lines 1020-1041): iterate
`i` below `max(len(columns), len(columns2))`; for an included index, a
missing memstore column is skipped, an index beyond the row's column slice
is an out-of-range assignment (`columns[i] = seq2` on a slice of length
`numColumns` — a runtime panic), and otherwise the slots merge in place. -/
def fileMergeLoop (shouldInclMs : Nat → Bool)
    (mergeFn : Nat → List Nat → List Nat → List Nat)
    (columns2 : List (List Nat)) (columns : List (List Nat)) :
    Except GoErr (List (List Nat)) :=
  (List.range (max columns.length columns2.length)).foldl
    (fun st i =>
      match st with
      | .error e => .error e
      | .ok cols =>
        if shouldInclMs i then
          if columns2.length ≤ i then .ok cols
          else if cols.length ≤ i then
            .error (.runtimeBreak "runtime error: index out of range")
          else .ok (cols.set i (mergeFn i (cols.getD i []) (columns2.getD i [])))
        else .ok cols)
    (.ok columns)

/-- Fold a file row through every memstore in order (removing matched
entries), as lines 1020-1041 do. -/
def rowThroughMemStores (shouldInclMs : Nat → Bool)
    (mergeFn : Nat → List Nat → List Nat → List Nat) (key : List Nat)
    (memStores : List MemStoreM) (columns : List (List Nat)) :
    Except GoErr (List (List Nat) × List MemStoreM) :=
  match memStores with
  | [] => .ok (columns, [])
  | ms :: rest =>
    let p := msRemove key ms
    match fileMergeLoop shouldInclMs mergeFn p.1 columns with
    | .error e => .error e
    | .ok cols' =>
      (rowThroughMemStores shouldInclMs mergeFn key rest cols').map
        (fun q => (q.1, p.2 :: q.2))

/-- The `numColumns` repeated `readInt64` calls of the row read loop
(lines 997-1002); reading past the row is a slice-bounds panic. -/
def readColLens (count : Nat) (row : List Nat) :
    Except GoErr (List Nat × List Nat) :=
  match count with
  | 0 => .ok ([], row)
  | c + 1 =>
    if row.length < 8 then .error (.runtimeBreak "slice bounds out of range")
    else
      (readColLens c (row.drop 8)).map
        (fun p => (leNat (row.take 8) :: p.1, p.2))

/-- The repeated `readSequence(row, colLength)` calls (lines 1005-1018):
each takes its length's bytes (`nil` for length 0). -/
def readSeqs (lens : List Nat) (row : List Nat) :
    Except GoErr (List (List Nat) × List Nat) :=
  match lens with
  | [] => .ok ([], row)
  | l :: rest =>
    if row.length < l then .error (.runtimeBreak "slice bounds out of range")
    else
      (readSeqs rest (row.drop l)).map (fun p => (row.take l :: p.1, p.2))

/-- Parsing one row's payload (after the 8 rowLength bytes, lines
993-1018): key length, key, column count, column lengths, column bytes.
`columns` has a slot per file column, filled only at included indices;
the flag is `includesAtLeastOneColumn` after the file columns. -/
def parseRow (shouldInclFile : Nat → Bool) (row : List Nat) :
    Except GoErr (List Nat × List (List Nat) × Bool) :=
  if row.length < 2 then .error (.runtimeBreak "slice bounds out of range")
  else
    let keyLength := leNat (row.take 2)
    let row1 := row.drop 2
    if row1.length < keyLength then
      .error (.runtimeBreak "slice bounds out of range")
    else
      let key := row1.take keyLength
      let row2 := row1.drop keyLength
      if row2.length < 2 then .error (.runtimeBreak "slice bounds out of range")
      else
        let numColumns := leNat (row2.take 2)
        match readColLens numColumns (row2.drop 2) with
        | .error e => .error e
        | .ok (colLengths, row4) =>
          match readSeqs colLengths row4 with
          | .error e => .error e
          | .ok (seqs, _) =>
            let columns := (List.range numColumns).map
              (fun i => if shouldInclFile i then seqs.getD i [] else [])
            let flag := (List.range numColumns).any
              (fun i => shouldInclFile i && !(seqs.getD i []).isEmpty)
            .ok (key, columns, flag)

/-- The file row read loop (lines 974-1046): read a row length (EOF on an
empty stream ends the loop; a short length prefix or body is an error; a
row length below 8 breaks `PutUint64`), parse the row, fold it through the
memstores, and deliver it when a column is included.  The merge loop's only
branch that could newly set `includesAtLeastOneColumn` is preceded by the
out-of-range assignment, so the flag after parsing stands.  Returns the
delivered rows, the memstores after removals, and the terminating error if
any. -/
def readRows (shouldInclFile shouldInclMs : Nat → Bool)
    (mergeFn : Nat → List Nat → List Nat → List Nat)
    (memStores : List MemStoreM) (stream : List Nat) :
    List SRow × List MemStoreM × Option GoErr :=
  if stream.length = 0 then ([], memStores, none)
  else if stream.length < 8 then
    ([], memStores, some (.error "Unexpected error reading row length"))
  else
    let rowLength := leNat (stream.take 8)
    if rowLength < 8 then
      ([], memStores, some (.runtimeBreak "slice bounds out of range"))
    else if stream.length < rowLength then
      ([], memStores, some (.error "Unexpected error while reading row"))
    else
      match parseRow shouldInclFile ((stream.drop 8).take (rowLength - 8)) with
      | .error e => ([], memStores, some e)
      | .ok (key, columns, flag) =>
        match rowThroughMemStores shouldInclMs mergeFn key memStores columns with
        | .error e => ([], memStores, some e)
        | .ok (cols', memStores') =>
          let next := readRows shouldInclFile shouldInclMs mergeFn memStores'
            (stream.drop rowLength)
          (if flag then (key, cols') :: next.1 else next.1, next.2.1, next.2.2)
termination_by stream.length
decreasing_by
  simp only [List.length_drop]
  omega

/-- One memstore entry's merge during the memstore walk phase (lines
1055-1068): unlike the file loop, an index beyond the current columns is
appended.  `shouldIncludeMemStoreField` is only assigned when the file
exists; calling it while `nil` is a nil-function-call panic. -/
def walkMergeLoop (shouldInclMs : Option (Nat → Bool))
    (mergeFn : Nat → List Nat → List Nat → List Nat)
    (columns2 : List (List Nat)) (columns : List (List Nat)) :
    Except GoErr (List (List Nat)) :=
  (List.range (max columns.length columns2.length)).foldl
    (fun st i =>
      match st with
      | .error e => .error e
      | .ok cols =>
        match shouldInclMs with
        | none =>
          .error (.runtimeBreak "invalid memory address or nil pointer dereference")
        | some incl =>
          if incl i then
            if columns2.length ≤ i then .ok cols
            else if cols.length ≤ i then .ok (cols ++ [columns2.getD i []])
            else .ok (cols.set i (mergeFn i (cols.getD i []) (columns2.getD i [])))
          else .ok cols)
    (.ok columns)

/-- One walked entry folded through the later memstores (lines 1053-1069):
each later memstore gives up its entry for the key, merged by the
append-capable loop. -/
def entryThroughLater (shouldInclMs : Option (Nat → Bool))
    (mergeFn : Nat → List Nat → List Nat → List Nat) (key : List Nat) :
    List MemStoreM → List (List Nat) →
    Except GoErr (List (List Nat) × List MemStoreM)
  | [], cols => .ok (cols, [])
  | ms2 :: rest, cols =>
    let p := msRemove key ms2
    match walkMergeLoop shouldInclMs mergeFn p.1 cols with
    | .error e => .error e
    | .ok cols' =>
      (entryThroughLater shouldInclMs mergeFn key rest cols').map
        (fun q => (q.1, p.2 :: q.2))

/-- Walking one memstore's remaining entries (lines 1050-1074): every entry
is merged across the later memstores and delivered unconditionally. -/
def walkEntries (shouldInclMs : Option (Nat → Bool))
    (mergeFn : Nat → List Nat → List Nat → List Nat) :
    List (List Nat × List (List Nat)) → List MemStoreM →
    List SRow × List MemStoreM × Option GoErr
  | [], later => ([], later, none)
  | (key, cols) :: more, later =>
    match entryThroughLater shouldInclMs mergeFn key later cols with
    | .error e => ([], later, some e)
    | .ok (cols', later') =>
      let next := walkEntries shouldInclMs mergeFn more later'
      ((key, cols') :: next.1, next.2.1, next.2.2)

/-- The steps of the memstore walk phase: the source loops over the
memstore indices (`for s, ms := range memStores`), each position walked
after the removals its predecessors made in the later trees; one fuel unit
per position (`entryThroughLater` keeps the count of later memstores, so
the fuel is exactly the positions left). -/
def msWalkSteps (shouldInclMs : Option (Nat → Bool))
    (mergeFn : Nat → List Nat → List Nat → List Nat) :
    Nat → List MemStoreM → List SRow × Option GoErr
  | _, [] => ([], none)
  | 0, _ :: _ => ([], none)
  | fuel + 1, ms :: rest =>
    let p := walkEntries shouldInclMs mergeFn ms rest
    match p.2.2 with
    | some e => (p.1, some e)
    | none =>
      let q := msWalkSteps shouldInclMs mergeFn fuel p.2.1
      (p.1 ++ q.1, q.2)

/-- The whole memstore walk phase (lines 1049-1074). -/
def msWalkPhase (shouldInclMs : Option (Nat → Bool))
    (mergeFn : Nat → List Nat → List Nat → List Nat)
    (mss : List MemStoreM) : List SRow × Option GoErr :=
  msWalkSteps shouldInclMs mergeFn mss.length mss

/-- `fileStore.iterate` (lines 872-1077) for a version-2 file (the version
this flusher writes): read and reconcile the header, build the two
inclusion predicates (memstore fields first), stream the file rows merged
with the memstores, then walk the remaining memstore entries.  When the
file does not exist both header handling and predicate construction are
skipped and `shouldIncludeMemStoreField` stays nil.  Returns the rows
delivered to `onRow` in order and the error outcome. -/
def fsIterate (t : STable) (fileExists : Bool) (stream : List Nat)
    (memStores : List MemStoreM) (fields : List String)
    (mergeFn : Nat → List Nat → List Nat → List Nat) :
    List SRow × Option GoErr :=
  if fileExists then
    if stream.length < 4 then
      ([], some (.error "Unexpected error reading header length"))
    else
      let headerLength := leNat (stream.take 4)
      let rest0 := stream.drop 4
      if rest0.length < headerLength then ([], some (.error "unexpected EOF"))
      else
        match reconcileFields t.Fields (splitBytes (rest0.take headerLength)) with
        | .error e => ([], some e)
        | .ok fileFields =>
          match buildShouldInclude fields t.Fields with
          | .error e => ([], some e)
          | .ok inclMs =>
            match buildShouldInclude fields fileFields with
            | .error e => ([], some e)
            | .ok inclFile =>
              let r := readRows inclFile inclMs mergeFn memStores
                (rest0.drop headerLength)
              match r.2.2 with
              | some e => (r.1, some e)
              | none =>
                let w := msWalkPhase (some inclMs) mergeFn r.2.1
                (r.1 ++ w.1, w.2)
  else
    msWalkPhase none mergeFn memStores

/-- A one-field demo table for the C2 and C8 witnesses. -/
def demoT1 : STable := ⟨[⟨"a", [97]⟩]⟩

/-- A single demo row: key `[5]`, one column `[9]`. -/
def demoRows1 : List SRow := [([5], [[9]])]

/-- An identity sequence truncation (a row fully within retention). -/
def idTrunc : Nat → List Nat → List Nat := fun _ s => s

/-- A concrete sequence merge keeping the file side. -/
def fstMerge : Nat → List Nat → List Nat → List Nat := fun _ a _ => a

/-- The C6 scenario tree: key `[1,2,3]` inserted (data 1), then its proper
prefix `[1,2]` inserted (data 2) — the second insertion splits the edge at
the full key length. -/
def demoTreeC6 : BTree Nat :=
  updateT (fun _ => 2) [1, 2] (updateT (fun _ => 1) [1, 2, 3] (BTree.new Nat))

/-- The C9 witness tree: one leaf under the root, already logically removed
for ctx 7, with non-trivial counters. -/
def demoTreeC9 : BTree Nat :=
  ⟨.mk [] none [] [([1], .mk [1] (some 5) [7] [])], 3, 1⟩

/-! ## §6  `rowStore.iterate`'s memstore snapshot (lines 629-649)

The `memStores` map (`map[int]*tree`) is an association of generation
indices to memstore trees; the trees themselves are opaque here (`μ`).
`processInserts` installs generation 0, each flush request retires the
current generation `idx` and installs `idx+1`, and `processFlushes` deletes
generation `req.idx` when the flush completes (line 814). -/

/-- Go map access: the value at the key, or the zero value (`nil` tree)
when absent. -/
def mapGet {μ : Type} (m : List (Nat × μ)) (i : Nat) : Option μ :=
  (m.find? (fun e => e.1 = i)).map (fun e => e.2)

/-- The snapshot loop of `rowStore.iterate` (lines 632-646): include all
generations, or all but the youngest when `IncludeMemStoreInQuery` is
false, reading `rs.memStores[i]` for `i` below the count; the entry at
`i = count - 1` is copied.  A `none` entry is the nil `*tree` a missing
key yields, which the copy call or `fileStore.iterate` then dereferences. -/
def iterateSnapshot {μ : Type} (includeMemStore : Bool) (copyFn : μ → μ)
    (memStores : List (Nat × μ)) : List (Option μ) :=
  let total := memStores.length
  let toInclude := if includeMemStore then total else total - 1
  (List.range toInclude).map (fun i =>
    (mapGet memStores i).map (fun ms => if i = total - 1 then copyFn ms else ms))

/-- The row store's generation state: the current generation index, the
`memStores` map, and the flush requests in flight (the flush channel). -/
structure RowStoreGen (μ : Type) where
  memStoreIdx : Nat
  memStores : List (Nat × μ)
  pendingFlush : List Nat

/-- The reachable `memStores` states (`processInserts` lines 577-627 and
`processFlushes` line 814): generation 0 at start; a flush request (when
the single-slot channel is free) retires the current generation and
installs the next; inserts replace the current generation's tree; a
completing flush deletes its generation from the map. -/
inductive RSReach {μ : Type} : RowStoreGen μ → Prop where
  | init (v : μ) : RSReach ⟨0, [(0, v)], []⟩
  | insertUpd {s : RowStoreGen μ} (v : μ) (h : RSReach s) :
      RSReach ⟨s.memStoreIdx,
        s.memStores.map (fun e =>
          if e.1 = s.memStoreIdx then (e.1, v) else e),
        s.pendingFlush⟩
  | flushRequest {s : RowStoreGen μ} (v : μ) (h : RSReach s)
      (hfree : s.pendingFlush = []) :
      RSReach ⟨s.memStoreIdx + 1,
        s.memStores ++ [(s.memStoreIdx + 1, v)], [s.memStoreIdx]⟩
  | flushComplete {i : Nat} {ms : List (Nat × μ)} {j : Nat} {rest : List Nat}
      (h : RSReach ⟨i, ms, j :: rest⟩) :
      RSReach ⟨i, ms.eraseP (fun e => e.1 = j), rest⟩

/-! ## Theorems for claims C4, C5, C10 -/

/-- **C4.** For the AVG expression, merging two encoded states into a zeroed
destination is commutative and associative; if exactly one side's wasSet
flag is true the destination receives that side's count and total; if both
are unset the destination's wasSet flag remains false. -/
theorem avg_merge_comm_assoc_skip (x y z : AvgState) :
    avgMerge AvgState.zero x y = avgMerge AvgState.zero y x
    ∧ avgMerge AvgState.zero (avgMerge AvgState.zero x y) z
        = avgMerge AvgState.zero x (avgMerge AvgState.zero y z)
    ∧ (x.wasSet = true → y.wasSet = false →
        avgMerge AvgState.zero x y = avgSave x.count x.total)
    ∧ (x.wasSet = false → y.wasSet = true →
        avgMerge AvgState.zero x y = avgSave y.count y.total)
    ∧ (x.wasSet = false → y.wasSet = false →
        (avgMerge AvgState.zero x y).wasSet = false) := by
  obtain ⟨xs, xc, xt⟩ := x
  obtain ⟨ys, yc, yt⟩ := y
  obtain ⟨zs, zc, zt⟩ := z
  cases xs <;> cases ys <;> cases zs <;>
    (simp [avgMerge, avgLoad, avgSave, AvgState.zero, AvgState.mk.injEq] <;>
      repeat' constructor) <;>
    ring

/-- Witness for C4: instantiates the one-sided (skipped-state) hypotheses at
a concrete set state and the zero state. -/
theorem avg_merge_comm_assoc_skip_witness :
    (avgSave 2 10).wasSet = true ∧ AvgState.zero.wasSet = false
    ∧ avgMerge AvgState.zero (avgSave 2 10) AvgState.zero = avgSave 2 10 :=
  ⟨rfl, rfl, by
    have h := (avg_merge_comm_assoc_skip (avgSave 2 10) AvgState.zero
      AvgState.zero).2.2.1 rfl rfl
    simpa [avgSave] using h⟩

/-- **C5.** AVG's encoded width is `16 + childWidth + 1`; the derived value
of a set state with count `c` and total `t` is `t/c` (0 when `c = 0`); `get`
on an unset state returns `(0, false)`. -/
theorem avg_width_calc_get (w : Nat) (c t : ℚ) (g : AvgState) :
    avgEncodedWidth w = 16 + w + 1
    ∧ avgGet (avgSave c t) = (if c = 0 then 0 else t / c, true)
    ∧ (g.wasSet = false → avgGet g = (0, false)) := by
  refine ⟨by simp [avgEncodedWidth, width64bits]; omega, ?_, ?_⟩
  · simp [avgGet, avgLoad, avgSave, avgCalc]
  · intro h
    obtain ⟨gs, gc, gt⟩ := g
    simp only at h
    subst h
    simp [avgGet, avgLoad]

/-- Witness for C5: instantiates the unset-state hypothesis at the zero
state, with concrete width and counts. -/
theorem avg_width_calc_get_witness :
    AvgState.zero.wasSet = false
    ∧ avgEncodedWidth 5 = 16 + 5 + 1
    ∧ avgGet (avgSave 4 10) = (10 / 4, true)
    ∧ avgGet AvgState.zero = (0, false) := by
  have h := avg_width_calc_get 5 4 10 AvgState.zero
  exact ⟨rfl, h.1, by simpa using h.2.1, h.2.2 rfl⟩

/-- **C10.** `bytemapParams.Get` returns `(0, false)` when the field is
absent from the byte map and `(v, true)` when value `v` is stored. -/
theorem bytemapParams_get_absent_present (bm : ByteMapF) (field : String) :
    (byteMapGet bm field = none → bytemapParamsGet bm field = (0, false))
    ∧ (∀ v, byteMapGet bm field = some v → bytemapParamsGet bm field = (v, true)) := by
  constructor
  · intro h
    simp [bytemapParamsGet, h]
  · intro v h
    simp [bytemapParamsGet, h]

/-- Witness for C10: a concrete two-entry byte map, exercising both the
absent and the present hypothesis. -/
theorem bytemapParams_get_absent_present_witness :
    byteMapGet [("a", (4 : ℚ)), ("b", 7)] "c" = none
    ∧ byteMapGet [("a", (4 : ℚ)), ("b", 7)] "b" = some 7
    ∧ bytemapParamsGet [("a", (4 : ℚ)), ("b", 7)] "c" = (0, false)
    ∧ bytemapParamsGet [("a", (4 : ℚ)), ("b", 7)] "b" = (7, true) := by
  refine ⟨by simp [byteMapGet], by simp [byteMapGet], ?_, ?_⟩
  · exact (bytemapParams_get_absent_present [("a", 4), ("b", 7)] "c").1
      (by simp [byteMapGet])
  · exact (bytemapParams_get_absent_present [("a", 4), ("b", 7)] "b").2 7
      (by simp [byteMapGet])

set_option maxHeartbeats 1000000 in
/-- **C3.** Scenario S1: for `SUM(FIELD("a"))` at one-minute resolution,
updating the empty sequence with (E, a=1), (E+2min, a=2), (E−1min, a=3),
(E−3min, a=4) — E a bucket-aligned epoch, retention wide enough that
nothing is truncated — yields start = E+2min and valueAt over 6 periods
[2, 0, 1, 3, 0, 4]. -/
theorem sum_field_sequence_s1 (E tb : Int) (hE : minuteNs ∣ E)
    (htb : tb ≤ E - 3 * minuteNs) :
    seqS1 E tb = some ⟨E + 2 * minuteNs,
        [⟨true, 2⟩, ⟨false, 0⟩, ⟨true, 1⟩, ⟨true, 3⟩, ⟨false, 0⟩, ⟨true, 4⟩]⟩
    ∧ seqNumPeriods (seqS1 E tb) = 6
    ∧ (List.range 6).map (seqValueAt (seqS1 E tb)) =
        [(2, true), (0, false), (1, true), (3, true), (0, false), (4, true)] := by
  obtain ⟨m, rfl⟩ := hE
  simp only [minuteNs] at htb
  have key : seqS1 (minuteNs * m) tb = some ⟨minuteNs * m + 2 * minuteNs,
      [⟨true, 2⟩, ⟨false, 0⟩, ⟨true, 1⟩, ⟨true, 3⟩, ⟨false, 0⟩, ⟨true, 4⟩]⟩ := by
    have e1 : seqUpdate none "a" (60000000000 * m) [("a", 1)] 60000000000 tb
        = some ⟨60000000000 * m, [⟨true, 1⟩]⟩ := by
      have a1 : (60000000000 * m / 60000000000 * 60000000000 : Int) = 60000000000 * m := by
        omega
      simp [seqUpdate, alignDown, minuteNs, seqTruncate, sumFieldUpdate, byteMapGet,
        SumSlot.zero, a1]
      omega
    have e2 : seqUpdate (some ⟨60000000000 * m, [⟨true, 1⟩]⟩) "a"
        (60000000000 * m + 2 * 60000000000) [("a", 2)] 60000000000 tb
        = some ⟨60000000000 * m + 120000000000, [⟨true, 2⟩, ⟨false, 0⟩, ⟨true, 1⟩]⟩ := by
      have a2 : ((60000000000 * m + 120000000000) / 60000000000 * 60000000000 : Int)
          = 60000000000 * m + 120000000000 := by omega
      have a3 : ((60000000000 * m - (60000000000 * m + 120000000000) / 60000000000
          * 60000000000) / 60000000000 : Int) = -2 := by omega
      simp [seqUpdate, alignDown, minuteNs, seqTruncate, sumFieldUpdate, byteMapGet,
        SumSlot.zero, a2, a3]
      omega
    have e3 : seqUpdate (some ⟨60000000000 * m + 120000000000,
          [⟨true, 2⟩, ⟨false, 0⟩, ⟨true, 1⟩]⟩) "a"
        (60000000000 * m - 60000000000) [("a", 3)] 60000000000 tb
        = some ⟨60000000000 * m + 120000000000,
          [⟨true, 2⟩, ⟨false, 0⟩, ⟨true, 1⟩, ⟨true, 3⟩]⟩ := by
      have a4 : ((60000000000 * m - 60000000000) / 60000000000 * 60000000000 : Int)
          = 60000000000 * m - 60000000000 := by omega
      have a5 : ((60000000000 * m + 120000000000 - (60000000000 * m - 60000000000)
          / 60000000000 * 60000000000) / 60000000000 : Int) = 3 := by omega
      have hcut3 : ¬ (60000000000 * m - 60000000000 < tb) := by omega
      simp [seqUpdate, alignDown, minuteNs, seqTruncate, sumFieldUpdate, byteMapGet,
        SumSlot.zero, a4, a5, hcut3]
      omega
    have e4 : seqUpdate (some ⟨60000000000 * m + 120000000000,
          [⟨true, 2⟩, ⟨false, 0⟩, ⟨true, 1⟩, ⟨true, 3⟩]⟩) "a"
        (60000000000 * m - 3 * 60000000000) [("a", 4)] 60000000000 tb
        = some ⟨60000000000 * m + 120000000000,
          [⟨true, 2⟩, ⟨false, 0⟩, ⟨true, 1⟩, ⟨true, 3⟩, ⟨false, 0⟩, ⟨true, 4⟩]⟩ := by
      have a6 : ((60000000000 * m - 180000000000) / 60000000000 * 60000000000 : Int)
          = 60000000000 * m - 180000000000 := by omega
      have a7 : ((60000000000 * m + 120000000000 - (60000000000 * m - 180000000000)
          / 60000000000 * 60000000000) / 60000000000 : Int) = 5 := by omega
      have hcut4 : ¬ (60000000000 * m - 180000000000 < tb) := by omega
      simp [seqUpdate, alignDown, minuteNs, seqTruncate, sumFieldUpdate, byteMapGet,
        SumSlot.zero, a6, a7, hcut4]
      omega
    simp only [seqS1, minuteNs]
    rw [show (60000000000 : Int) * m + 2 * 60000000000
        = 60000000000 * m + 120000000000 from by ring] at e2 ⊢
    rw [show (60000000000 : Int) * m - 3 * 60000000000
        = 60000000000 * m - 180000000000 from by ring] at e4 ⊢
    rw [e1, e2, e3, e4]
  refine ⟨key, ?_, ?_⟩
  · simp [key, seqNumPeriods]
  · simp [key, seqValueAt, sumGet, List.range_succ]

/-- Witness for C3: the concrete epoch E = one minute past the zero time,
with a retention cutoff three minutes before E. -/
theorem sum_field_sequence_s1_witness :
    minuteNs ∣ (60000000000 : Int)
    ∧ (-180000000000 : Int) ≤ 60000000000 - 3 * minuteNs
    ∧ ((List.range 6).map (seqValueAt (seqS1 60000000000 (-180000000000))) =
        [(2, true), (0, false), (1, true), (3, true), (0, false), (4, true)]) :=
  ⟨⟨1, rfl⟩, by simp [minuteNs],
   (sum_field_sequence_s1 60000000000 (-180000000000) ⟨1, rfl⟩
      (by simp [minuteNs])).2.2⟩

/-! ## Theorems for claims C6 and C9 (radix tree) -/

/-- Every node weighs more than its edge targets together (helper for the
walk lemmas). -/
theorem edges_weight_lt {α : Type} (n : BNode α) :
    ((n.edges.map Prod.snd).map sizeOf).sum < sizeOf n := by
  obtain ⟨k, d, r, es⟩ := n
  have h : ∀ es' : List (List Nat × BNode α),
      ((es'.map Prod.snd).map sizeOf).sum < 1 + sizeOf es' := by
    intro es'
    induction es' with
    | nil => simp
    | cons e t ih =>
      obtain ⟨l, c⟩ := e
      simp only [List.map_cons, List.sum_cons, List.cons.sizeOf_spec,
        Prod.mk.sizeOf_spec]
      omega
  have h2 := h es
  simp only [BNode.edges, BNode.mk.sizeOf_spec]
  omega

/-- `copyNode` unfolded on a literal node. -/
theorem copyNode_eq {α : Type} (k : List Nat) (d : Option α) (r : List Int)
    (es : List (List Nat × BNode α)) :
    copyNode (.mk k d r es) = .mk k d [] (es.map (fun e => (e.1, copyNode e.2))) := by
  rw [copyNode.eq_def]
  simp only [BNode.key, BNode.data, BNode.edges]
  congr 1
  exact List.attach_map_coe es (fun x => (x.1, copyNode x.2))

/-- Nodes have positive weight. -/
theorem sizeOf_bnode_pos {α : Type} (n : BNode α) : 0 < sizeOf n := by
  obtain ⟨k, d, r, es⟩ := n
  simp only [BNode.mk.sizeOf_spec]
  omega

/-- Lists have positive weight. -/
theorem sizeOf_list_pos {β : Type} [SizeOf β] (l : List β) : 0 < sizeOf l := by
  cases l with
  | nil => simp
  | cons a t => simp only [List.cons.sizeOf_spec]; omega

/-- Walking copied nodes under any ctx visits what walking the originals
under the sentinel ctx 0 visits: the copies carry no `removedFor` marks. -/
theorem walkAux_copy {α : Type} (ctx : Int) (q : List (BNode α)) :
    walkAux ctx (q.map copyNode) = walkAux 0 q := by
  suffices h : ∀ w (q : List (BNode α)), (q.map sizeOf).sum ≤ w →
      walkAux ctx (q.map copyNode) = walkAux 0 q from h _ q le_rfl
  intro w
  induction w with
  | zero =>
    intro q hq
    cases q with
    | nil => simp [walkAux]
    | cons n rest =>
      exfalso
      have := sizeOf_bnode_pos n
      simp only [List.map_cons, List.sum_cons] at hq
      omega
  | succ w ih =>
    intro q hq
    cases q with
    | nil => simp [walkAux]
    | cons n rest =>
      obtain ⟨k, d, r, es⟩ := n
      have hweight := edges_weight_lt (BNode.mk k d r es)
      simp only [List.map_cons, List.sum_cons] at hq
      simp only [BNode.edges, List.map_map] at hweight
      have hq' : (((rest ++ es.map Prod.snd)).map sizeOf).sum ≤ w := by
        simp only [List.map_append, List.sum_append, List.map_map]
        omega
      have htail := ih (rest ++ es.map Prod.snd) hq'
      rw [List.map_append, List.map_map] at htail
      have hmaps : (es.map (fun e => (e.1, copyNode e.2))).map Prod.snd
          = es.map (copyNode ∘ Prod.snd) := by
        rw [List.map_map]
        rfl
      simp only [List.map_cons, copyNode_eq, walkAux, BNode.data, BNode.key,
        BNode.edges, wasRemovedFor, BNode.removedFor]
      cases d with
      | none => simpa [hmaps] using htail
      | some v => simp [hmaps, htail]

/-- `Remove` under any ctx finds on copied edges what `Remove` under ctx 0
finds on the originals. -/
theorem removeGo_copy {α : Type} (ctx : Int) (es : List (List Nat × BNode α))
    (key : List Nat) :
    (removeGo ctx (es.map (fun e => (e.1, copyNode e.2))) key).1
      = (removeGo 0 es key).1 := by
  suffices h : ∀ w (es : List (List Nat × BNode α)) (key : List Nat),
      sizeOf es ≤ w →
      (removeGo ctx (es.map (fun e => (e.1, copyNode e.2))) key).1
        = (removeGo 0 es key).1 from h _ es key le_rfl
  intro w
  induction w with
  | zero =>
    intro es key hq
    exact absurd hq (by have := sizeOf_list_pos es; omega)
  | succ w ih =>
    intro es key hq
    cases es with
    | nil => simp [removeGo]
    | cons e rest =>
      obtain ⟨label, target⟩ := e
      obtain ⟨k, d, r, tes⟩ := target
      simp only [List.cons.sizeOf_spec, Prod.mk.sizeOf_spec,
        BNode.mk.sizeOf_spec] at hq
      simp only [List.map_cons, removeGo, copyNode_eq, BNode.data, BNode.key,
        BNode.edges, BNode.removedFor, wasRemovedFor, List.contains_nil,
        if_pos rfl]
      have h1 := ih tes (key.drop label.length) (by omega)
      have h2 := ih rest key (by omega)
      split_ifs <;> simp_all

/-- **C9.** `Tree.Copy` preserves the bytes and length counters and the
key-to-data associations, but drops every `removedFor` mark: in the copy,
walking under any ctx delivers what a sentinel (ctx 0) walk of the original
delivers, and `Remove` under any ctx finds the data that a ctx-0 `Remove`
finds in the original — including ctx values the original had marks for.
(The root node never carries data in trees built by `Update`.) -/
theorem tree_copy_resets_removal {α : Type} (t : BTree α) (ctx : Int)
    (k : List Nat) (hroot : t.root.data = none) :
    (copyTree t).bytes = t.bytes
    ∧ (copyTree t).length = t.length
    ∧ walkT ctx (copyTree t) = walkT 0 t
    ∧ (removeT ctx k (copyTree t)).1 = (removeT 0 k t).1 := by
  obtain ⟨⟨rk, rd, rr, res⟩, b, len⟩ := t
  simp only [BNode.data] at hroot
  subst hroot
  refine ⟨rfl, rfl, ?_, ?_⟩
  · simp only [walkT, copyTree, BNode.edges, walkAux, BNode.data]
    have hmaps : (res.map (fun e => (e.1, copyNode e.2))).map Prod.snd
        = (res.map Prod.snd).map copyNode := by
      rw [List.map_map, List.map_map]
      rfl
    simp only [hmaps]
    rw [show ([] : List (BNode α)) ++ (res.map Prod.snd).map copyNode
        = ((res.map Prod.snd).map copyNode) from rfl]
    rw [show ([] : List (BNode α)) ++ res.map Prod.snd
        = res.map Prod.snd from rfl]
    exact walkAux_copy ctx (res.map Prod.snd)
  · simp only [removeT, copyTree, BNode.edges]
    exact removeGo_copy ctx res k

/-- Witness for C9: a tree whose only leaf is already removed for ctx 7;
the copy shows it to walks and removes under ctx 7 again. -/
theorem tree_copy_resets_removal_witness :
    demoTreeC9.root.data = none
    ∧ ((copyTree demoTreeC9).bytes = demoTreeC9.bytes
       ∧ (copyTree demoTreeC9).length = demoTreeC9.length
       ∧ walkT 7 (copyTree demoTreeC9) = walkT 0 demoTreeC9
       ∧ (removeT 7 [1] (copyTree demoTreeC9)).1 = (removeT 0 [1] demoTreeC9).1) :=
  ⟨rfl, tree_copy_resets_removal demoTreeC9 7 [1] rfl⟩

/-- **C6 (failing input).** Inserting key `[1,2,3]` and then its proper
prefix `[1,2]` into an empty tree leaves the node holding `[1,2]`'s data
with a nil key (`edge.split` sets `key` only on the `splitOn ≠ len(key)`
branch), so `Walk(0, fn)` invokes `fn` with the nil key — never with the
inserted key `[1,2]`. -/
theorem walk_after_prefix_insert_loses_key :
    walkT 0 demoTreeC6 = [([], 2), ([1, 2, 3], 1)]
    ∧ [1, 2] ∉ (walkT 0 demoTreeC6).map Prod.fst := by
  constructor <;>
    simp [demoTreeC6, updateT, BTree.new, updateGo, walkT, walkAux,
      wasRemovedFor, commonPrefixLen, splitEdge, newLeaf, dataUpdate,
      BNode.key, BNode.data, BNode.edges, BNode.removedFor]


/-! ## Theorems for claims C1, C2, C8 (file store) -/


/-- `leBytes` always emits exactly `w` bytes. -/
theorem length_leBytes (w n : Nat) : (leBytes w n).length = w := by
  induction w generalizing n with
  | zero => simp [leBytes]
  | succ w ih => simp [leBytes, ih]

/-- Reading little-endian bytes back gives the value modulo the width. -/
theorem leNat_leBytes (w n : Nat) : leNat (leBytes w n) = n % 256 ^ w := by
  induction w generalizing n with
  | zero => simp [leBytes, leNat, Nat.mod_one]
  | succ w ih =>
    simp only [leBytes, leNat, List.foldr_cons] at ih ⊢
    rw [ih, pow_succ', Nat.mod_mul]

/-- Within range, the little-endian round trip is exact. -/
theorem leNat_leBytes_of_lt {w n : Nat} (h : n < 256 ^ w) :
    leNat (leBytes w n) = n := by
  rw [leNat_leBytes, Nat.mod_eq_of_lt h]

/-- Reading a length prefix off a longer stream. -/
theorem leNat_take_append (w n : Nat) (rest : List Nat) (h : n < 256 ^ w) :
    leNat ((leBytes w n ++ rest).take w) = n := by
  rw [List.take_left' (length_leBytes w n), leNat_leBytes_of_lt h]

/-- Splitting at a leading separator. -/
theorem splitBytes_cons_sep (l : List Nat) :
    splitBytes (sepByte :: l) = [] :: splitBytes l := by
  rw [splitBytes]
  match h : splitBytes l with
  | [] => simp
  | p :: ps => simp

/-- A split always has at least one piece (as in Go). -/
theorem splitBytes_ne_nil (l : List Nat) : splitBytes l ≠ [] := by
  cases l with
  | nil => simp [splitBytes]
  | cons b rest =>
    rw [splitBytes]
    match h : splitBytes rest with
    | [] => simp
    | p :: ps =>
      by_cases hb : b = sepByte <;> simp [hb]

/-- Splitting past a non-separator byte. -/
theorem splitBytes_cons_ne (b : Nat) (l : List Nat) (hb : b ≠ sepByte) :
    splitBytes (b :: l)
      = (b :: (splitBytes l).headI) :: (splitBytes l).tail := by
  rw [splitBytes]
  match h : splitBytes l with
  | [] => exact absurd h (splitBytes_ne_nil l)
  | p :: ps => simp [hb]

/-- Splitting past a separator-free chunk. -/
theorem splitBytes_append_ne (s l : List Nat) (hs : sepByte ∉ s) :
    splitBytes (s ++ l)
      = (s ++ (splitBytes l).headI) :: (splitBytes l).tail := by
  induction s with
  | nil =>
    simp only [List.nil_append]
    match h : splitBytes l with
    | [] => exact absurd h (splitBytes_ne_nil l)
    | p :: ps => simp [List.headI]
  | cons b bs ih =>
    have hb : b ≠ sepByte := by
      intro hcontra
      exact hs (by simp [hcontra])
    have hbs : sepByte ∉ bs := fun hmem => hs (by simp [hmem])
    rw [List.cons_append, splitBytes_cons_ne b (bs ++ l) hb, ih hbs]
    simp [List.headI]

/-- Go's `Split` inverts `Join` for non-empty, separator-free pieces. -/
theorem splitBytes_joinBytes (strs : List (List Nat)) (hne : strs ≠ [])
    (hs : ∀ s ∈ strs, sepByte ∉ s) :
    splitBytes (joinBytes strs) = strs := by
  induction strs with
  | nil => exact absurd rfl hne
  | cons s rest ih =>
    cases rest with
    | nil =>
      simp only [joinBytes]
      have : splitBytes (s ++ []) = (s ++ (splitBytes []).headI) :: (splitBytes []).tail :=
        splitBytes_append_ne s [] (hs s (by simp))
      simpa [splitBytes, List.headI] using this
    | cons s2 rest2 =>
      rw [show joinBytes (s :: s2 :: rest2) = s ++ sepByte :: joinBytes (s2 :: rest2) from rfl]
      rw [splitBytes_append_ne s _ (hs s (by simp))]
      rw [splitBytes_cons_sep]
      rw [ih (by simp) (fun x hx => hs x (by simp [hx]))]
      simp [List.headI]

/-- With pairwise-distinct `String()` forms, each field finds itself. -/
theorem find_self_of_nodup (fields : List SField)
    (hnd : (fields.map SField.Str).Nodup) :
    ∀ f ∈ fields, fields.find? (fun g => g.Str = f.Str) = some f := by
  induction fields with
  | nil => intro f hf; simp at hf
  | cons f0 rest ih =>
    intro f hf
    rcases List.mem_cons.mp hf with rfl | hmem
    · rw [List.find?_cons_of_pos _ (by simp)]
    · have hne : f0.Str ≠ f.Str := by
        simp only [List.map_cons, List.nodup_cons] at hnd
        intro hcontra
        exact hnd.1 (hcontra ▸ List.mem_map_of_mem SField.Str hmem)
      rw [List.find?_cons_of_neg _ (by simp [hne])]
      simp only [List.map_cons, List.nodup_cons] at hnd
      exact ih hnd.2 f hmem

/-- A header written from the table's own fields reconciles to them. -/
theorem reconcile_self (fields : List SField)
    (hnd : (fields.map SField.Str).Nodup) :
    reconcileFields fields (fields.map SField.Str) = .ok fields := by
  have hfind := find_self_of_nodup fields hnd
  suffices h : ∀ sub : List SField,
      (∀ f ∈ sub, fields.find? (fun g => g.Str = f.Str) = some f) →
      reconcileFields fields (sub.map SField.Str) = .ok sub from
    h fields hfind
  intro sub
  induction sub with
  | nil => intro _; simp [reconcileFields]
  | cons f rest ih =>
    intro hsub
    simp only [List.map_cons, reconcileFields]
    rw [hsub f (by simp)]
    rw [ih (fun g hg => hsub g (by simp [hg]))]
    rfl

/-- No field filter: everything is included. -/
theorem buildShouldInclude_noFilter (candidates : List SField) :
    buildShouldInclude [] candidates = .ok (fun _ => true) := rfl

/-- A non-empty filter matching no candidate is the recoverable
iterate-startup error. -/
theorem buildShouldInclude_noneMatch (fields : List String)
    (candidates : List SField) (hne : fields ≠ [])
    (h : ∀ c ∈ candidates, ∀ f ∈ fields, f ≠ c.Name) :
    buildShouldInclude fields candidates
      = .error (.error "Non of specified fields exists on table!") := by
  unfold buildShouldInclude
  have hfilter : candidates.enum.filter
      (fun p => fields.any (fun f => f = p.2.Name)) = [] := by
    rw [List.filter_eq_nil_iff]
    intro p hp
    have hmem : p.2 ∈ candidates := List.snd_mem_of_mem_enum hp
    simp only [List.any_eq_true, decide_eq_true_eq, not_exists]
    rintro f ⟨hf, hEq⟩
    exact h p.2 hmem f hf hEq
  rw [hfilter]
  simp [List.length_eq_zero.not.mpr hne, hne]

/-- Opening a version-2 stream whose header was written from the same
table: the header parses, `fileFields` reconciles to the table's fields,
and iterate proceeds to the inclusion predicates and the row loop. -/
theorem fsIterate_v2_header (t : STable) (body : List Nat)
    (ms : List MemStoreM) (fields : List String)
    (mergeFn : Nat → List Nat → List Nat → List Nat)
    (hne : t.Fields ≠ [])
    (hsep : ∀ f ∈ t.Fields, sepByte ∉ f.Str)
    (hnd : (t.Fields.map SField.Str).Nodup)
    (hlen : (joinBytes (t.Fields.map SField.Str)).length < 2 ^ 32) :
    fsIterate t true (writeHeader t ++ body) ms fields mergeFn
      = match buildShouldInclude fields t.Fields with
        | .error e => ([], some e)
        | .ok inclMs =>
          match buildShouldInclude fields t.Fields with
          | .error e => ([], some e)
          | .ok inclFile =>
            let r := readRows inclFile inclMs mergeFn ms body
            match r.2.2 with
            | some e => (r.1, some e)
            | none =>
              let w := msWalkPhase (some inclMs) mergeFn r.2.1
              (r.1 ++ w.1, w.2) := by
  have h256 : (256 : Nat) ^ 4 = 2 ^ 32 := by norm_num
  set hb := joinBytes (t.Fields.map SField.Str) with hhb
  have hlen' : hb.length < 256 ^ 4 := by rw [h256]; exact hlen
  have hstream : writeHeader t ++ body = leBytes 4 hb.length ++ (hb ++ body) := by
    simp [writeHeader, hhb]
  rw [hstream]
  unfold fsIterate
  rw [if_pos rfl]
  have hlen4 : (leBytes 4 hb.length ++ (hb ++ body)).length ≥ 4 := by
    simp [length_leBytes]
  rw [if_neg (by omega)]
  rw [leNat_take_append 4 hb.length (hb ++ body) hlen']
  rw [List.drop_left' (length_leBytes 4 hb.length)]
  rw [if_neg (by simp)]
  rw [List.take_left' rfl]
  have hmapne : t.Fields.map SField.Str ≠ [] := by
    simpa using hne
  rw [splitBytes_joinBytes _ hmapne (by
    intro s hs
    obtain ⟨f, hf, rfl⟩ := List.mem_map.mp hs
    exact hsep f hf)]
  rw [reconcile_self t.Fields hnd]
  rw [List.drop_left' rfl]

/-- The column-length prefix array reads back exactly. -/
theorem readColLens_flatten (cols : List (List Nat)) (tail : List Nat)
    (hlen : ∀ s ∈ cols, s.length < 256 ^ 8) :
    readColLens cols.length
        ((cols.map (fun s => leBytes 8 s.length)).flatten ++ tail)
      = .ok (cols.map List.length, tail) := by
  induction cols with
  | nil => simp [readColLens]
  | cons c cs ih =>
    simp only [List.map_cons, List.flatten_cons, List.length_cons,
      List.append_assoc]
    rw [readColLens]
    rw [if_neg (by simp [length_leBytes])]
    rw [leNat_take_append 8 c.length _ (hlen c (by simp))]
    rw [List.drop_left' (length_leBytes 8 c.length)]
    rw [ih (fun s hs => hlen s (by simp [hs]))]
    rfl

/-- The concatenated column bytes read back exactly. -/
theorem readSeqs_flatten (cols : List (List Nat)) (tail : List Nat) :
    readSeqs (cols.map List.length) (cols.flatten ++ tail) = .ok (cols, tail) := by
  induction cols with
  | nil => simp [readSeqs]
  | cons c cs ih =>
    simp only [List.map_cons, List.flatten_cons, List.append_assoc]
    rw [readSeqs]
    rw [if_neg (by simp)]
    rw [List.take_left' rfl, List.drop_left' rfl]
    rw [ih]
    rfl

/-- `readSeqs_flatten` with nothing after the columns. -/
theorem readSeqs_flatten_nil (cols : List (List Nat)) :
    readSeqs (cols.map List.length) cols.flatten = .ok (cols, []) := by
  simpa using readSeqs_flatten cols []

/-- A serialized row payload parses back to its key and columns, with
`includesAtLeastOneColumn` set. -/
theorem parseRow_roundtrip (key : List Nat) (cols : List (List Nat))
    (hkey : key.length < 256 ^ 2) (hn : cols.length < 256 ^ 2)
    (hcl : ∀ s ∈ cols, s.length < 256 ^ 8)
    (hactive : ¬ cols.all (fun s => s.isEmpty)) :
    parseRow (fun _ => true)
        (leBytes 2 key.length ++ key ++ leBytes 2 cols.length
          ++ (cols.map (fun s => leBytes 8 s.length)).flatten ++ cols.flatten)
      = .ok (key, cols, true) := by
  unfold parseRow
  simp only [List.append_assoc]
  rw [if_neg (by simp [length_leBytes])]
  rw [leNat_take_append 2 key.length _ hkey]
  rw [List.drop_left' (length_leBytes 2 key.length)]
  rw [if_neg (by simp)]
  rw [List.take_left' rfl, List.drop_left' rfl]
  rw [if_neg (by simp [length_leBytes])]
  rw [leNat_take_append 2 cols.length _ hn]
  rw [List.drop_left' (length_leBytes 2 cols.length)]
  rw [readColLens_flatten cols cols.flatten hcl]
  simp only [readSeqs_flatten_nil, if_true, Bool.true_and]
  simp only [Except.ok.injEq, Prod.mk.injEq, true_and]
  constructor
  · apply List.ext_getElem
    · simp
    · intro i h1 h2
      simp [List.getD_eq_getElem?_getD, List.getElem?_eq_getElem h2]
  · simp only [List.all_eq_true, not_forall] at hactive
    obtain ⟨s, hs, hne⟩ := hactive
    obtain ⟨i, hi, rfl⟩ := List.getElem_of_mem hs
    simp only [List.any_eq_true, List.mem_range]
    refine ⟨i, hi, ?_⟩
    simp only [List.getD_eq_getElem?_getD, List.getElem?_eq_getElem hi,
      Option.getD_some]
    simpa using hne

/-- Splitting the per-column `8 + len` sum. -/
theorem sum_map_add_const (cols : List (List Nat)) :
    (cols.map (fun s => 8 + s.length)).sum
      = 8 * cols.length + (cols.map List.length).sum := by
  induction cols with
  | nil => simp
  | cons c cs ih => simp [ih]; ring

/-- `write` on an untruncated, active row emits the header-then-payload
bytes. -/
theorem writeRow_eq (truncFn : Nat → List Nat → List Nat) (key : List Nat)
    (cols : List (List Nat)) (htr : truncColumns truncFn cols = cols)
    (hactive : ¬ cols.all (fun s => s.isEmpty)) :
    writeRow truncFn key cols
      = leBytes 8 (rowLenOf key cols) ++ (leBytes 2 key.length ++ key
          ++ leBytes 2 cols.length
          ++ (cols.map (fun s => leBytes 8 s.length)).flatten
          ++ cols.flatten) := by
  unfold writeRow
  rw [htr]
  rw [if_neg (by simpa using hactive)]
  simp [List.append_assoc]

/-- The payload after the row-length prefix is `rowLength - 8` bytes. -/
theorem writeRow_tail_length (key : List Nat) (cols : List (List Nat)) :
    (leBytes 2 key.length ++ key ++ leBytes 2 cols.length
        ++ (cols.map (fun s => leBytes 8 s.length)).flatten
        ++ cols.flatten).length = rowLenOf key cols - 8 := by
  simp only [List.length_append, length_leBytes, List.length_flatten,
    List.map_map, rowLenOf]
  rw [show (List.length ∘ fun s : List Nat => leBytes 8 s.length)
      = fun _ => 8 from by funext s; simp [length_leBytes]]
  simp only [List.map_const', List.sum_replicate, smul_eq_mul]
  rw [sum_map_add_const]
  simp [List.map_map]
  omega

/-- Every row is at least its fixed 12 bytes of framing. -/
theorem rowLenOf_ge (key : List Nat) (cols : List (List Nat)) :
    12 ≤ rowLenOf key cols := by
  simp only [rowLenOf]
  omega

/-- Column lengths are bounded by the row length. -/
theorem collen_lt_of_rowLen (key : List Nat) (cols : List (List Nat))
    (h : rowLenOf key cols < 2 ^ 64) : ∀ s ∈ cols, s.length < 256 ^ 8 := by
  intro s hs
  have hmem : 8 + s.length ∈ cols.map (fun s => 8 + s.length) :=
    List.mem_map_of_mem _ hs
  have hle : 8 + s.length ≤ (cols.map (fun s => 8 + s.length)).sum :=
    List.single_le_sum (fun x _ => Nat.zero_le x) _ hmem
  have h264 : (256 : Nat) ^ 8 = 2 ^ 64 := by norm_num
  simp only [rowLenOf] at h
  omega

/-- The row read loop recovers exactly the rows the `write` closure
emitted, with no memstores left and no error. -/
theorem readRows_roundtrip (truncFn : Nat → List Nat → List Nat)
    (mergeFn : Nat → List Nat → List Nat → List Nat) :
    ∀ rows : List SRow,
    (∀ r ∈ rows, r.1.length < 256 ^ 2) →
    (∀ r ∈ rows, r.2.length < 256 ^ 2) →
    (∀ r ∈ rows, rowLenOf r.1 r.2 < 2 ^ 64) →
    (∀ r ∈ rows, truncColumns truncFn r.2 = r.2) →
    (∀ r ∈ rows, ¬ r.2.all (fun s => s.isEmpty)) →
    readRows (fun _ => true) (fun _ => true) mergeFn []
        ((rows.map (fun r => writeRow truncFn r.1 r.2)).flatten)
      = (rows, [], none) := by
  intro rows
  induction rows with
  | nil =>
    intro _ _ _ _ _
    rw [readRows]
    simp
  | cons r rest ih =>
    intro h1 h2 h3 h4 h5
    obtain ⟨key, cols⟩ := r
    have hkey := h1 (key, cols) (by simp)
    have hn := h2 (key, cols) (by simp)
    have hrl := h3 (key, cols) (by simp)
    have h264 : (256 : Nat) ^ 8 = 2 ^ 64 := by norm_num
    have hcl := collen_lt_of_rowLen key cols hrl
    have hL12 := rowLenOf_ge key cols
    have hw := writeRow_eq truncFn key cols (h4 (key, cols) (by simp))
      (h5 (key, cols) (by simp))
    set L := rowLenOf key cols with hLdef
    set B := leBytes 2 key.length ++ key ++ leBytes 2 cols.length
        ++ (cols.map (fun s => leBytes 8 s.length)).flatten
        ++ cols.flatten with hBdef
    have hlenB : B.length = L - 8 := writeRow_tail_length key cols
    simp only [List.map_cons, List.flatten_cons]
    rw [hw]
    set Rest := (rest.map (fun r => writeRow truncFn r.1 r.2)).flatten with hRest
    rw [List.append_assoc]
    rw [readRows]
    rw [if_neg (by simp only [List.length_append, length_leBytes]; omega)]
    rw [if_neg (by simp only [List.length_append, length_leBytes]; omega)]
    rw [leNat_take_append 8 L _ (by omega)]
    rw [if_neg (by omega)]
    rw [if_neg (by simp only [List.length_append, length_leBytes]; omega)]
    rw [List.drop_left' (length_leBytes 8 L)]
    rw [List.take_left' hlenB]
    rw [hBdef]
    rw [parseRow_roundtrip key cols hkey hn hcl (h5 (key, cols) (by simp))]
    have hdrop : (leBytes 8 L ++ (B ++ Rest)).drop L = Rest := by
      rw [← List.append_assoc]
      refine List.drop_left' ?_
      simp [length_leBytes, hlenB]
      omega
    rw [hdrop]
    simp only [rowThroughMemStores]
    rw [ih (fun x hx => h1 x (by simp [hx])) (fun x hx => h2 x (by simp [hx]))
      (fun x hx => h3 x (by simp [hx])) (fun x hx => h4 x (by simp [hx]))
      (fun x hx => h5 x (by simp [hx]))]
    simp

/-- **C2.** Rows emitted through the flusher's write function into a
filestore stream and read back by `fileStore.iterate` with no memstores
and no field filter are reproduced exactly: identical keys, column counts
and byte-identical column sequences, in order, with no error.  Hypotheses:
the schema header round-trips (non-empty fields, comma-free and distinct
`String()` forms, header under 2^32 bytes) and each row is within
retention (truncation leaves it unchanged), has an active sequence, and
respects the format's width limits (key under 2^16, columns under 2^16,
row length under 2^64). -/
theorem flush_iterate_roundtrip (t : STable) (truncFn : Nat → List Nat → List Nat)
    (mergeFn : Nat → List Nat → List Nat → List Nat) (rows : List SRow)
    (hfields : t.Fields ≠ [])
    (hsep : ∀ f ∈ t.Fields, sepByte ∉ f.Str)
    (hnodup : (t.Fields.map SField.Str).Nodup)
    (hheader : (joinBytes (t.Fields.map SField.Str)).length < 2 ^ 32)
    (hkey : ∀ r ∈ rows, r.1.length < 256 ^ 2)
    (hncols : ∀ r ∈ rows, r.2.length < 256 ^ 2)
    (hrow : ∀ r ∈ rows, rowLenOf r.1 r.2 < 2 ^ 64)
    (htrunc : ∀ r ∈ rows, truncColumns truncFn r.2 = r.2)
    (hactive : ∀ r ∈ rows, ¬ r.2.all (fun s => s.isEmpty)) :
    fsIterate t true (writeStream t truncFn rows) [] [] mergeFn = (rows, none) := by
  unfold writeStream
  rw [fsIterate_v2_header t _ [] [] mergeFn hfields hsep hnodup hheader]
  rw [buildShouldInclude_noFilter]
  simp only [readRows_roundtrip truncFn mergeFn rows hkey hncols hrow htrunc
    hactive, msWalkPhase, msWalkSteps]
  simp

/-- **C8 (amended).** When the filestore file exists with a header
written from the table's fields and the non-empty fields list contains no
name of any table field, iterate returns the recoverable error from
`buildShouldInclude` at startup, before any row is delivered. -/
theorem iterate_unknown_fields_error (t : STable) (body : List Nat)
    (ms : List MemStoreM) (fields : List String)
    (mergeFn : Nat → List Nat → List Nat → List Nat)
    (hne : t.Fields ≠ [])
    (hsep : ∀ f ∈ t.Fields, sepByte ∉ f.Str)
    (hnd : (t.Fields.map SField.Str).Nodup)
    (hlen : (joinBytes (t.Fields.map SField.Str)).length < 2 ^ 32)
    (hfne : fields ≠ [])
    (hmiss : ∀ c ∈ t.Fields, ∀ f ∈ fields, f ≠ c.Name) :
    fsIterate t true (writeHeader t ++ body) ms fields mergeFn
      = ([], some (.error "Non of specified fields exists on table!")) := by
  rw [fsIterate_v2_header t body ms fields mergeFn hne hsep hnd hlen]
  rw [buildShouldInclude_noneMatch fields t.Fields hfne hmiss]

set_option maxRecDepth 4000 in
/-- **C8 (counterexample).** A fields list containing the unknown name
`zzz` next to the known name `a`: iterate returns no error and delivers
the row — refuting the claim that any unknown name in the list yields a
recoverable error. -/
theorem iterate_partial_unknown_field_no_error :
    fsIterate ⟨[⟨"a", [97]⟩, ⟨"b", [98]⟩]⟩ true
        (writeStream ⟨[⟨"a", [97]⟩, ⟨"b", [98]⟩]⟩ (fun _ s => s) [([5], [[9]])])
        [] ["a", "zzz"] (fun _ a _ => a)
      = ([([5], [[9]])], none) := by
  simp [writeStream, writeHeader, writeRow, truncColumns, rowLenOf, joinBytes,
    leBytes, fsIterate, leNat, splitBytes, sepByte, reconcileFields,
    buildShouldInclude, shouldIncludeScan, readRows, parseRow, readColLens,
    readSeqs, rowThroughMemStores, msWalkPhase, msWalkSteps, List.range_succ,
    msRemove, fileMergeLoop, List.find?, List.enum, List.enumFrom, Except.map,
    List.filter]

set_option maxRecDepth 4000 in
/-- **C1 (failing input).** A one-column file row (written under the old
one-field schema) merged with a two-column memstore entry for the same
key: the file merge loop's `columns[i] = seq2` assignment at `i = 1` is
past the length-1 column slice, so iterate breaks with an index
out-of-range runtime error instead of delivering the row with the extra
memstore column — for every sequence-merge function. -/
theorem iterate_extra_memstore_columns_break
    (mergeFn : Nat → List Nat → List Nat → List Nat) :
    fsIterate ⟨[⟨"a", [97]⟩, ⟨"b", [98]⟩]⟩ true
        (writeStream ⟨[⟨"a", [97]⟩]⟩ (fun _ s => s) [([5], [[9]])])
        [[([5], [[1], [2]])]] [] mergeFn
      = ([], some (.runtimeBreak "runtime error: index out of range")) := by
  simp [writeStream, writeHeader, writeRow, truncColumns, rowLenOf, joinBytes,
    leBytes, fsIterate, leNat, splitBytes, sepByte, reconcileFields,
    buildShouldInclude, shouldIncludeScan, readRows, parseRow, readColLens,
    readSeqs, rowThroughMemStores, msWalkPhase, msWalkSteps, List.range_succ,
    msRemove, fileMergeLoop, List.find?, List.enum, List.enumFrom, Except.map,
    List.filter]



/-- Witness for C2: a one-field table and a single one-column row, with
identity truncation. -/
theorem flush_iterate_roundtrip_witness :
    demoT1.Fields ≠ []
    ∧ (∀ f ∈ demoT1.Fields, sepByte ∉ f.Str)
    ∧ (demoT1.Fields.map SField.Str).Nodup
    ∧ (joinBytes (demoT1.Fields.map SField.Str)).length < 2 ^ 32
    ∧ (∀ r ∈ demoRows1, r.1.length < 256 ^ 2)
    ∧ (∀ r ∈ demoRows1, r.2.length < 256 ^ 2)
    ∧ (∀ r ∈ demoRows1, rowLenOf r.1 r.2 < 2 ^ 64)
    ∧ (∀ r ∈ demoRows1, truncColumns idTrunc r.2 = r.2)
    ∧ (∀ r ∈ demoRows1, ¬ r.2.all (fun s => s.isEmpty))
    ∧ fsIterate demoT1 true (writeStream demoT1 idTrunc demoRows1) [] [] fstMerge
        = (demoRows1, none) := by
  refine ⟨by decide, by decide, by decide, by decide, by decide, by decide,
    by decide, by decide, by decide, ?_⟩
  exact flush_iterate_roundtrip demoT1 idTrunc fstMerge demoRows1 (by decide)
    (by decide) (by decide) (by decide) (by decide) (by decide) (by decide)
    (by decide) (by decide)

/-- Witness for C8 (amended): querying the one-field table for only the
unknown field name `zzz`. -/
theorem iterate_unknown_fields_error_witness :
    demoT1.Fields ≠ []
    ∧ (∀ f ∈ demoT1.Fields, sepByte ∉ f.Str)
    ∧ (demoT1.Fields.map SField.Str).Nodup
    ∧ (joinBytes (demoT1.Fields.map SField.Str)).length < 2 ^ 32
    ∧ (["zzz"] : List String) ≠ []
    ∧ (∀ c ∈ demoT1.Fields, ∀ f ∈ (["zzz"] : List String), f ≠ c.Name)
    ∧ fsIterate demoT1 true (writeHeader demoT1 ++ []) [] ["zzz"] fstMerge
        = ([], some (.error "Non of specified fields exists on table!")) := by
  refine ⟨by decide, by decide, by decide, by decide, by decide, by decide, ?_⟩
  exact iterate_unknown_fields_error demoT1 [] [] ["zzz"] fstMerge (by decide)
    (by decide) (by decide) (by decide) (by decide) (by decide)

/-! ## Theorem for claim C7 (row store snapshot) -/

/-- **C7 (failing state).** After the first flush completes, the reachable
`memStores` map is `{1: current}`; with `IncludeMemStoreInQuery` true, the
snapshot loop reads `rs.memStores[0]` — a missing key — and builds `[nil]`
instead of `[copy of the current memstore]`: the youngest memstore is
neither copied nor passed, and the nil tree breaks `copy`/`iterate`.
Holds for every tree type, copy function and tree values. -/
theorem iterate_snapshot_misses_generation {μ : Type} (copyFn : μ → μ)
    (v0 v1 : μ) :
    RSReach (⟨1, [(1, v1)], []⟩ : RowStoreGen μ)
    ∧ iterateSnapshot true copyFn [(1, v1)] = [none] := by
  constructor
  · have h1 : RSReach (⟨1, [(0, v0), (1, v1)], [0]⟩ : RowStoreGen μ) :=
      .flushRequest v1 (.init v0) rfl
    have h2 := RSReach.flushComplete h1
    simpa [List.eraseP] using h2
  · simp [iterateSnapshot, mapGet, List.find?, List.range_succ]


end ZenoDb
